import Mathlib

/-!
# Verification of the PVSS engine (`share/pvss/pvss.go`) and `abstract` marshaling

Shallow embedding of the PVSS protocol of `src/share/pvss/pvss.go` and of the
`UnmarshalBinary` functions of `src/abstract/marshal.go`.

The underlying prime-order group is modelled in the exponent: a scalar is an
element of `ZMod q` (`q` prime in the theorems), and a point of the group is
represented by its discrete logarithm with respect to the base generator `G`,
so a point is again an element of `ZMod q`, `G` is `1`, and scalar
multiplication `s·P` is field multiplication.  The second generator `H` is an
arbitrary element.

The polynomial secret-sharing primitive (`share.PriPoly`, `share.PubPoly`,
`share.RecoverCommit`), the DLEQ proof primitive (`proof.DLEQProof`) and the
suite registry (`StringToSuite`) are code of this repository that is not under
`src/`; they are modelled from the spec (sections 3, 4 and 6), as marked in
their doc comments.
-/

namespace PVSS

/-- Error kinds of `pvss.go` (`errorTooFewShares`, `errorDifferentLengths`,
`errorEncVerification`, `errorDecVerification`). -/
inductive PVSSErr where
  | tooFewShares
  | differentLengths
  | encVerificationFailed
  | decVerificationFailed
deriving DecidableEq, Repr

/-- A scalar of the group: an element of the prime field `ZMod q`. -/
abbrev Scalar (q : ℕ) := ZMod q

/-- A point of the prime-order group, represented by its discrete logarithm
with respect to the base generator. -/
abbrev Point (q : ℕ) := ZMod q

/-- The base generator `G` of the group (`suite.Point().Base()`): in exponent
representation, `1`. -/
def pointBase (q : ℕ) : Point q := 1

/-- Scalar multiplication `Point.Mul(p, s) = s·p` of `abstract.Point`, in
exponent representation. -/
def pointMul (q : ℕ) (p : Point q) (s : Scalar q) : Point q := s * p

/-- Modelled from the spec (section 6, DLEQ proof primitive, not under `src/`):
a discrete-log-equality proof is modelled by the exponent it attests, so that
a proof verifies against a statement exactly when both discrete-log relations
hold for that exponent (perfect completeness and soundness of the NIZK). -/
structure DLEQProof (q : ℕ) where
  x : Scalar q
deriving DecidableEq, Repr

/-- Modelled from the spec (section 6): `verify(proof, base1, target1, base2,
target2)` holds iff `target1 = x·base1` and `target2 = x·base2` for the
attested exponent `x`. Argument order follows the Go call sites
`P.Verify(suite, g1, g2, xG1, xG2)`. -/
def DLEQProof.Verify (q : ℕ) (p : DLEQProof q) (g1 g2 xG1 xG2 : Point q) : Bool :=
  decide (xG1 = p.x * g1) && decide (xG2 = p.x * g2)

/-- Modelled from the spec (section 6): `prove(base1, base2, exponent)` returns
the proof together with the two targets `x·base1`, `x·base2`. -/
def NewDLEQProof (q : ℕ) (g1 g2 : Point q) (x : Scalar q) :
    DLEQProof q × Point q × Point q :=
  (⟨x⟩, x * g1, x * g2)

/-- Modelled from the spec (sections 4.1 and 6): batched DLEQ prove over
parallel sequences of base pairs and exponents, sharing one challenge
derivation; returns the proofs and the two target sequences. -/
def NewDLEQProofBatch (q : ℕ) (g1s g2s : List (Point q)) (xs : List (Scalar q)) :
    List (DLEQProof q) × List (Point q) × List (Point q) :=
  (xs.map fun x => ⟨x⟩,
   List.zipWith (fun x g => x * g) xs g1s,
   List.zipWith (fun x g => x * g) xs g2s)

/-- A private share `share.PriShare`: index and scalar value. -/
structure PriShare (q : ℕ) where
  I : ℕ
  V : Scalar q
deriving DecidableEq, Repr

/-- A public share `share.PubShare`: index and point value. -/
structure PubShare (q : ℕ) where
  I : ℕ
  V : Point q
deriving DecidableEq, Repr

/-- Horner evaluation of a polynomial given by its coefficient list
(constant term first). -/
def evalList (q : ℕ) (c : List (ZMod q)) (x : ZMod q) : ZMod q :=
  c.foldr (fun a acc => a + x * acc) 0

/-- Modelled from the spec (sections 3 and 6, polynomial primitive, not under
`src/`): a secret sharing polynomial of degree `t-1`, coefficient list with the
constant term first. -/
structure PriPoly (q : ℕ) where
  coeffs : List (ZMod q)
deriving DecidableEq, Repr

/-- Modelled from the spec (section 4.1 step 1): `newPolynomial(threshold,
constantTerm, randomness)` draws a degree-`(t-1)` polynomial whose constant
term is the secret; the randomness stream is modelled as the given list of
random coefficients. -/
def NewPriPoly (q : ℕ) (t : ℕ) (secret : Scalar q) (rand : List (Scalar q)) :
    PriPoly q :=
  ⟨secret :: rand.take (t - 1)⟩

/-- Modelled from the spec (section 4.1 step 2): evaluate the polynomial at
indices `1..n` to obtain the `n` plaintext shares `(i, v_i)`. -/
def PriPoly.Shares (q : ℕ) (p : PriPoly q) (n : ℕ) : List (PriShare q) :=
  (List.range n).map fun j => ⟨j + 1, evalList q p.coeffs ((j + 1 : ℕ) : ZMod q)⟩

/-- Modelled from the spec (section 3): the public commitment polynomial of
`p` under base `H` — same coefficients, committed via scalar multiplication
of `H`. -/
structure PubPoly (q : ℕ) where
  b : Point q
  commits : List (Point q)
deriving DecidableEq, Repr

/-- Modelled from the spec (section 4.1 step 3): `commit(polynomial, base)`. -/
def PriPoly.Commit (q : ℕ) (p : PriPoly q) (H : Point q) : PubPoly q :=
  ⟨H, p.coeffs.map fun a => a * H⟩

/-- Modelled from the spec (section 6): `evaluateCommitment(commitmentPoly,
index)` evaluates the committed polynomial at the share index. -/
def PubPoly.Eval (q : ℕ) (p : PubPoly q) (i : ℕ) : PubShare q :=
  ⟨i, evalList q p.commits ((i : ℕ) : ZMod q)⟩

/-- `pvss.PubVerShare`: a public verifiable share, i.e. a public share
bundled with a DLEQ proof. -/
structure PubVerShare (q : ℕ) where
  S : PubShare q
  P : DLEQProof q
deriving DecidableEq, Repr

/-- `err == nil` test on a Go `(value, error)` result. -/
def isOk {ε α : Type} : Except ε α → Bool
  | .ok _ => true
  | .error _ => false

/-- The public keys `X_i = x_i·G` of the recipients with private keys `xs`. -/
def pubKeys (q : ℕ) (xs : List (Scalar q)) : List (Point q) :=
  xs.map fun x => pointMul q (pointBase q) x

/-- `pvss.EncShares`: create the encrypted PVSS shares for the public keys `X`
together with the public commitment polynomial, issuing one batched DLEQ
consistency proof.  The dealer's randomness stream is the explicit argument
`rand`. -/
def EncShares (q : ℕ) (H : Point q) (X : List (Point q)) (secret : Scalar q)
    (t : ℕ) (rand : List (Scalar q)) :
    Except PVSSErr (List (PubVerShare q) × PubPoly q) :=
  let n := X.length
  let priPoly := NewPriPoly q t secret rand
  let priShares := PriPoly.Shares q priPoly n
  let pubPoly := PriPoly.Commit q priPoly H
  let indices := priShares.map (fun s => s.I)
  let values := priShares.map (fun s => s.V)
  let HS := List.replicate n H
  let res := NewDLEQProofBatch q HS X values
  let proofs := res.1
  let sX := res.2.2
  .ok (List.zipWith (fun i ps => ⟨⟨i, ps.2⟩, ps.1⟩) indices (proofs.zip sX), pubPoly)

/-- `pvss.VerifyEncShare`: check that the encrypted share satisfies
`log_H(sH) == log_X(sX)` where `sH` is the evaluation of the public
commitment polynomial at the share's index. -/
def VerifyEncShare (q : ℕ) (H X : Point q) (poly : PubPoly q)
    (encShare : PubVerShare q) : Except PVSSErr Unit :=
  let sH := PubPoly.Eval q poly encShare.S.I
  if DLEQProof.Verify q encShare.P H X sH.V encShare.S.V then .ok ()
  else .error .encVerificationFailed

/-- `pvss.VerifyEncShareBatch`: as `VerifyEncShare` but over slices, silently
dropping shares that fail verification and keeping the surviving keys and
shares aligned. -/
def VerifyEncShareBatch (q : ℕ) (H : Point q) (X : List (Point q))
    (polys : List (PubPoly q)) (encShares : List (PubVerShare q)) :
    Except PVSSErr (List (Point q) × List (PubVerShare q)) :=
  if X.length ≠ polys.length ∨ polys.length ≠ encShares.length then
    .error .differentLengths
  else
    let good := ((X.zip polys).zip encShares).filter fun p =>
      isOk (VerifyEncShare q H p.1.1 p.1.2 p.2)
    .ok (good.map (fun p => p.1.1), good.map (fun p => p.2))

/-- `pvss.DecShare`: verify the encrypted share, and if valid decrypt it as
`V = x⁻¹·sX` and issue a DLEQ decryption consistency proof on bases
`(G, V)`. -/
def DecShare (q : ℕ) (H X : Point q) (poly : PubPoly q) (x : Scalar q)
    (encShare : PubVerShare q) : Except PVSSErr (PubVerShare q) :=
  match VerifyEncShare q H X poly encShare with
  | .error e => .error e
  | .ok _ =>
    let G := pointBase q
    let V := pointMul q encShare.S.V x⁻¹
    let ps : PubShare q := ⟨encShare.S.I, V⟩
    let P := (NewDLEQProof q G V x).1
    .ok ⟨ps, P⟩

/-- `pvss.DecShareBatch`: as `DecShare` but over slices, silently dropping
shares that fail, returning the surviving keys, encrypted shares, and
decrypted shares. -/
def DecShareBatch (q : ℕ) (H : Point q) (X : List (Point q))
    (polys : List (PubPoly q)) (x : Scalar q)
    (encShares : List (PubVerShare q)) :
    Except PVSSErr (List (Point q) × List (PubVerShare q) × List (PubVerShare q)) :=
  if X.length ≠ polys.length ∨ polys.length ≠ encShares.length then
    .error .differentLengths
  else
    let good := ((X.zip polys).zip encShares).filterMap fun p =>
      match DecShare q H p.1.1 p.1.2 x p.2 with
      | .ok ds => some (p.1.1, p.2, ds)
      | .error _ => none
    .ok (good.map (fun p => p.1), good.map (fun p => p.2.1), good.map (fun p => p.2.2))

/-- `pvss.VerifyDecShare`: check that the decrypted share satisfies
`log_G(X) == log_V(sX)`. -/
def VerifyDecShare (q : ℕ) (G X : Point q) (encShare decShare : PubVerShare q) :
    Except PVSSErr Unit :=
  if DLEQProof.Verify q decShare.P G decShare.S.V X encShare.S.V then .ok ()
  else .error .decVerificationFailed

/-- `pvss.VerifyDecShareBatch`: as `VerifyDecShare` but over slices, returning
only the surviving decrypted shares. -/
def VerifyDecShareBatch (q : ℕ) (G : Point q) (X : List (Point q))
    (encShares decShares : List (PubVerShare q)) :
    Except PVSSErr (List (PubVerShare q)) :=
  if X.length ≠ encShares.length ∨ encShares.length ≠ decShares.length then
    .error .differentLengths
  else
    let good := ((X.zip encShares).zip decShares).filter fun p =>
      isOk (VerifyDecShare q G p.1.1 p.1.2 p.2)
    .ok (good.map (fun p => p.2))

/-- Modelled from the spec (sections 4.5 and 6, polynomial primitive, not
under `src/`): `share.RecoverCommit` performs Lagrange interpolation in the
group at the point `0`, using threshold-many of the given shares — the first
`t` — with each share's index as its interpolation node. -/
def RecoverCommit (q : ℕ) (shares : List (PubShare q)) (t n : ℕ) :
    Except PVSSErr (Point q) :=
  if shares.length < t then .error .tooFewShares
  else
    let S := shares.take t
    .ok (∑ i : Fin S.length,
      (∏ j ∈ Finset.univ.erase i,
        ((S.get j).I : ZMod q) * (((S.get j).I : ZMod q) - ((S.get i).I : ZMod q))⁻¹) *
      (S.get i).V)

/-- The list of encrypted shares produced by an honest `EncShares` run for
public keys `X` (normal form; the equality with `EncShares` is proved in
`encShares_eq`). -/
def encListOf (q : ℕ) (t : ℕ) (secret : Scalar q) (rand : List (Scalar q))
    (X : List (Point q)) : List (PubVerShare q) :=
  List.zipWith
    (fun i Xi =>
      ⟨⟨i + 1, evalList q (NewPriPoly q t secret rand).coeffs
          (((i + 1 : ℕ)) : ZMod q) * Xi⟩,
       ⟨evalList q (NewPriPoly q t secret rand).coeffs
          (((i + 1 : ℕ)) : ZMod q)⟩⟩)
    (List.range X.length) X

/-- The decrypted counterpart of an encrypted share under private key `x`:
same index, value `x⁻¹·sX`, proof attesting `x` (the equality with a
successful `DecShare` is proved in `decShare_ok`). -/
def decOf (q : ℕ) (p : Scalar q × PubVerShare q) : PubVerShare q :=
  ⟨⟨p.2.S.I, p.1⁻¹ * p.2.S.V⟩, ⟨p.1⟩⟩

/-- `pvss.RecoverSecret`: verify the decrypted shares in batch, fail with
`errorTooFewShares` if fewer than `t` survive, and otherwise recover the
shared secret `secret·G` from the surviving shares. -/
def RecoverSecret (q : ℕ) (G : Point q) (X : List (Point q))
    (encShares decShares : List (PubVerShare q)) (t n : ℕ) :
    Except PVSSErr (Point q) :=
  match VerifyDecShareBatch q G X encShares decShares with
  | .error e => .error e
  | .ok D =>
    if D.length < t then .error .tooFewShares
    else RecoverCommit q (D.map (fun s => s.S)) t n

end PVSS

namespace Abstract

/-- A byte sequence, each byte a natural number. -/
abbrev Bytes := List ℕ

/-- External collaborators of `abstract/marshal.go`: the header scanner
(`fmt.Fscanln` reading a suite name and a length from the buffer, returning
the unread remainder), the suite registry `StringToSuite` (repository code not
under `src/`, modelled from the spec's self-describing serialization
contract, section 6, with a suite identified by its name), the per-suite
decoders (`SecretInterface.UnmarshalBinary`, `PointInterface.UnmarshalBinary`
of the concrete group, modelled as the decoded abstract value), and the group
operations `Null` and `Add` used by `Point.UnmarshalBinary`. -/
structure MarshalEnv where
  scanHeader : Bytes → String × ℕ × Bytes
  stringToSuite : String → Except String String
  decodeSecret : String → Bytes → Bytes
  decodePoint : String → Bytes → Bytes
  nullPoint : Bytes
  addPoint : Bytes → Bytes → Bytes

/-- Model of `abstract.Secret`: the state of the wrapped `SecretInterface`
(its abstract value) together with the suite stored for unmarshalling. -/
structure MSecret where
  sval : Bytes
  ssuite : Option String
deriving DecidableEq, Repr

/-- Model of `abstract.Point`: the wrapped `PointInterface` may be `nil`
(`none`), otherwise it holds the abstract point value; the suite is stored
alongside. -/
structure MPoint where
  pval : Option Bytes
  psuite : Option String
deriving DecidableEq, Repr

/-- `abstract.Secret.UnmarshalBinary`: on empty input return `nil`
immediately; otherwise scan the suite name and value length from the buffer,
look the suite up, and decode the value into a fresh `SecretInterface`
carrying that suite. -/
def MSecret.unmarshalBinary (env : MarshalEnv) (s : MSecret) (data : Bytes) :
    MSecret × Option String :=
  if data.length = 0 then (s, none)
  else
    let hd := env.scanHeader data
    let bvalue := hd.2.2.take hd.2.1
    match env.stringToSuite hd.1 with
    | .error e => (s, some e)
    | .ok suite => (⟨env.decodeSecret suite bvalue, some suite⟩, none)

/-- `abstract.Point.UnmarshalBinary`: on empty input return `nil` immediately;
otherwise scan the header, look the suite up, decode the point, and either
fold it into the existing point via `Null`/`Add` or install it as a fresh
`PointInterface` carrying the suite. -/
def MPoint.unmarshalBinary (env : MarshalEnv) (p : MPoint) (data : Bytes) :
    MPoint × Option String :=
  if data.length = 0 then (p, none)
  else
    let hd := env.scanHeader data
    let bvalue := hd.2.2.take hd.2.1
    match env.stringToSuite hd.1 with
    | .error e => (p, some e)
    | .ok suite =>
      let point := env.decodePoint suite bvalue
      match p.pval with
      | some _ => (⟨some (env.addPoint env.nullPoint point), p.psuite⟩, none)
      | none => (⟨some point, some suite⟩, none)

end Abstract

namespace PVSS

/-- The `Mathlib` polynomial with coefficient list `c` (constant term first);
bridges the executable Horner evaluation `evalList` with `Polynomial`. -/
noncomputable def toPoly {F : Type} [Field F] (c : List F) : Polynomial F :=
  c.foldr (fun a p => Polynomial.C a + Polynomial.X * p) 0

theorem toPoly_nil {F : Type} [Field F] : toPoly ([] : List F) = 0 := rfl

theorem toPoly_cons {F : Type} [Field F] (a : F) (c : List F) :
    toPoly (a :: c) = Polynomial.C a + Polynomial.X * toPoly c := rfl

theorem eval_toPoly {F : Type} [Field F] (c : List F) (x : F) :
    (toPoly c).eval x = c.foldr (fun a acc => a + x * acc) 0 := by
  induction c with
  | nil => simp [toPoly]
  | cons a c ih => simp [toPoly_cons, ih, List.foldr]

theorem toPoly_degree_lt {F : Type} [Field F] (c : List F) :
    (toPoly c).degree < (c.length : WithBot ℕ) := by
  induction c with
  | nil =>
    rw [toPoly_nil, Polynomial.degree_zero]
    exact WithBot.bot_lt_coe _
  | cons a c ih =>
    have h1 : (Polynomial.C a).degree < ((c.length + 1 : ℕ) : WithBot ℕ) :=
      lt_of_le_of_lt Polynomial.degree_C_le (by exact_mod_cast Nat.succ_pos c.length)
    have h2 : (Polynomial.X * toPoly c).degree < ((c.length + 1 : ℕ) : WithBot ℕ) := by
      rcases eq_or_ne (toPoly c) 0 with h | h
      · rw [h, mul_zero, Polynomial.degree_zero]
        exact WithBot.bot_lt_coe _
      · rw [Polynomial.degree_mul, Polynomial.degree_X,
          Polynomial.degree_eq_natDegree h]
        rw [Polynomial.degree_eq_natDegree h] at ih
        have hlt : (toPoly c).natDegree < c.length := by exact_mod_cast ih
        have hlt' : 1 + (toPoly c).natDegree < c.length + 1 := by omega
        exact_mod_cast hlt'
    calc (toPoly (a :: c)).degree
        ≤ max (Polynomial.C a).degree (Polynomial.X * toPoly c).degree := by
          rw [toPoly_cons]; exact Polynomial.degree_add_le _ _
      _ < ((c.length + 1 : ℕ) : WithBot ℕ) := max_lt h1 h2
      _ = (((a :: c).length : ℕ) : WithBot ℕ) := by simp

/-- Lagrange recovery of the value at `0`: for any polynomial of degree below
`m` given by its coefficient list, and any `m` distinct nodes with their
values, the Lagrange-weighted sum of the values equals the constant term. -/
theorem sum_lagrange_eval_zero {F : Type} [Field F] (c : List F) (m : ℕ)
    (v r : Fin m → F) (hdeg : c.length ≤ m) (hinj : Function.Injective v)
    (hval : ∀ i, r i = (toPoly c).eval (v i)) :
    (∑ i : Fin m, (∏ j ∈ Finset.univ.erase i, v j * (v j - v i)⁻¹) * r i)
      = (toPoly c).eval 0 := by
  classical
  have hvs : Set.InjOn v (Finset.univ : Finset (Fin m)) := hinj.injOn
  have hdeg' : (toPoly c).degree < ((Finset.univ : Finset (Fin m)).card : WithBot ℕ) := by
    refine lt_of_lt_of_le (toPoly_degree_lt c) ?_
    rw [Finset.card_univ, Fintype.card_fin]
    exact_mod_cast hdeg
  have heq : toPoly c =
      Lagrange.interpolate (Finset.univ : Finset (Fin m)) v
        (fun i => (toPoly c).eval (v i)) :=
    Lagrange.eq_interpolate hvs hdeg'
  have hz := congrArg (Polynomial.eval 0) heq
  rw [Lagrange.interpolate_apply, Polynomial.eval_finset_sum] at hz
  rw [hz]
  refine Finset.sum_congr rfl fun i _ => ?_
  rw [Polynomial.eval_mul, Polynomial.eval_C, mul_comm, hval i]
  congr 1
  rw [Lagrange.basis, Polynomial.eval_prod]
  refine Finset.prod_congr rfl fun j _ => ?_
  rw [Lagrange.basisDivisor, Polynomial.eval_mul, Polynomial.eval_C,
    Polynomial.eval_sub, Polynomial.eval_X, Polynomial.eval_C]
  rw [zero_sub, mul_comm, mul_neg, ← neg_mul, neg_inv, neg_sub]

theorem evalList_eq_toPoly (q : ℕ) [Fact q.Prime] (c : List (ZMod q)) (x : ZMod q) :
    evalList q c x = (toPoly c).eval x :=
  (eval_toPoly c x).symm

theorem evalList_map_mul (q : ℕ) (c : List (ZMod q)) (h x : ZMod q) :
    evalList q (c.map fun a => a * h) x = evalList q c x * h := by
  induction c with
  | nil => simp [evalList]
  | cons a c ih =>
    simp only [List.map_cons, evalList, List.foldr_cons] at *
    rw [ih]; ring

theorem natCast_zmod_inj (q a b : ℕ) (ha : a < q) (hb : b < q)
    (h : (a : ZMod q) = (b : ZMod q)) : a = b := by
  haveI : NeZero q := ⟨by omega⟩
  have hv := congrArg ZMod.val h
  rwa [ZMod.val_cast_of_lt ha, ZMod.val_cast_of_lt hb] at hv

theorem injective_of_eq {α β : Type} (f g : α → β) (h : ∀ i, f i = g i)
    (hg : Function.Injective g) : Function.Injective f := by
  intro a b hab
  apply hg
  rw [← h a, ← h b]
  exact hab

theorem exceptBind_ok {α β : Type} (a : α) (f : α → Except PVSSErr β) :
    (Except.ok a : Except PVSSErr α).bind f = f a := rfl

/-- Verifying an honestly encrypted share — value `f(i)·X` with a proof
attesting the exponent `f(i)` — against the dealer's commitment always
succeeds. -/
theorem verifyEncShare_honest (q : ℕ) (h Xi : Point q) (p : PriPoly q) (i : ℕ) :
    VerifyEncShare q h Xi (PriPoly.Commit q p h)
      ⟨⟨i, evalList q p.coeffs ((i : ℕ) : ZMod q) * Xi⟩,
       ⟨evalList q p.coeffs ((i : ℕ) : ZMod q)⟩⟩ = .ok () := by
  unfold VerifyEncShare PubPoly.Eval PriPoly.Commit DLEQProof.Verify
  simp only [evalList_map_mul]
  simp

/-- When the consistency check passes, `DecShare` returns the share with the
same index and the decrypted value `x⁻¹·sX`, proved under exponent `x`. -/
theorem decShare_ok (q : ℕ) (h Xv : Point q) (poly : PubPoly q) (x : Scalar q)
    (e : PubVerShare q) (hver : VerifyEncShare q h Xv poly e = .ok ()) :
    DecShare q h Xv poly x e = .ok ⟨⟨e.S.I, x⁻¹ * e.S.V⟩, ⟨x⟩⟩ := by
  unfold DecShare
  rw [hver]
  rfl

/-- Verifying an honestly decrypted share against the recipient's public key
always succeeds when the private key is nonzero. -/
theorem verifyDecShare_honest (q : ℕ) (hq : q.Prime) (x sXv : ZMod q)
    (hx : x ≠ 0) (i j : ℕ) (pr : DLEQProof q) :
    VerifyDecShare q (pointBase q) (pointMul q (pointBase q) x)
      ⟨⟨i, sXv⟩, pr⟩ ⟨⟨j, x⁻¹ * sXv⟩, ⟨x⟩⟩ = .ok () := by
  haveI : Fact q.Prime := ⟨hq⟩
  unfold VerifyDecShare DLEQProof.Verify pointMul pointBase
  simp [mul_inv_cancel_left₀ hx]

theorem mapM_ok {α β : Type} (f : α → Except PVSSErr β) (g : α → β) (l : List α)
    (h : ∀ a ∈ l, f a = .ok (g a)) : l.mapM f = .ok (l.map g) := by
  induction l with
  | nil => rfl
  | cons a l ih =>
    rw [List.mapM_cons, h a (by simp), ih fun b hb => h b (by simp [hb])]
    rfl

/-- If every triple verifies, the batch verification of decrypted shares
keeps all of them. -/
theorem verifyDecShareBatch_ok (q : ℕ) (G : Point q) (X : List (Point q))
    (E D : List (PubVerShare q)) (h1 : X.length = E.length)
    (h2 : E.length = D.length)
    (hall : ∀ p ∈ (X.zip E).zip D, VerifyDecShare q G p.1.1 p.1.2 p.2 = .ok ()) :
    VerifyDecShareBatch q G X E D = .ok D := by
  unfold VerifyDecShareBatch
  rw [if_neg (by omega)]
  have hfil : (((X.zip E).zip D).filter fun p =>
      isOk (VerifyDecShare q G p.1.1 p.1.2 p.2)) = (X.zip E).zip D :=
    List.filter_eq_self.mpr fun p hp => by rw [hall p hp]; rfl
  rw [hfil]
  have hlz : D.length ≤ (X.zip E).length := by
    rw [List.length_zip]; omega
  have := List.map_snd_zip (X.zip E) D hlz
  simpa using this

/-- `RecoverCommit` on a list whose first `t` shares are evaluations of a
polynomial of degree `< t` at distinct nodes recovers the constant term. -/
theorem recoverCommit_eq (q : ℕ) (hq : q.Prime) (c : List (ZMod q))
    (shares : List (PubShare q)) (t n : ℕ)
    (ht : t ≤ shares.length) (hc : c.length ≤ t)
    (hinj : Function.Injective fun i : Fin (shares.take t).length =>
      (((shares.take t).get i).I : ZMod q))
    (hval : ∀ s ∈ shares.take t, s.V = evalList q c ((s.I : ℕ) : ZMod q)) :
    RecoverCommit q shares t n = .ok (evalList q c 0) := by
  haveI : Fact q.Prime := ⟨hq⟩
  have hnlt : ¬ shares.length < t := by omega
  have hlen : (shares.take t).length = t := by
    rw [List.length_take]; omega
  have hsum := sum_lagrange_eval_zero c (shares.take t).length
    (fun i => (((shares.take t).get i).I : ZMod q))
    (fun i => ((shares.take t).get i).V)
    (by rw [hlen]; exact hc) hinj
    (fun i => by
      show ((shares.take t).get i).V =
        (toPoly c).eval ((((shares.take t).get i).I : ℕ) : ZMod q)
      rw [hval _ (List.get_mem _ i.1 i.2), evalList_eq_toPoly])
  simp only at hsum
  simp only [RecoverCommit, if_neg hnlt]
  rw [hsum]
  rw [evalList_eq_toPoly]

/-- Normal form of `EncShares`: the `i`-th encrypted share (0-based position
`i`, share index `i+1`) carries the value `f(i+1)·X_i` and a proof attesting
the exponent `f(i+1)`, and the returned polynomial is the commitment of the
sharing polynomial under `H`. -/
theorem encShares_eq (q : ℕ) (h : Point q) (X : List (Point q))
    (secret : Scalar q) (t : ℕ) (rand : List (Scalar q)) :
    EncShares q h X secret t rand = .ok
      (encListOf q t secret rand X,
       PriPoly.Commit q (NewPriPoly q t secret rand) h) := by
  unfold EncShares NewDLEQProofBatch PriPoly.Shares encListOf
  simp only [List.map_map]
  congr 2
  apply List.ext_getElem
  · simp
  · intro i h1 h2
    simp [List.getElem_zipWith, List.getElem_zip, List.getElem_map,
      List.getElem_range]

/-- Pipeline decryption: every recipient decrypting its honest encrypted
share succeeds, and the resulting list is the pointwise decryption. -/
theorem pipeline_dec (q t : ℕ) (h secret : ZMod q) (rand xs : List (Scalar q)) :
    ((xs.zip (encListOf q t secret rand (pubKeys q xs))).mapM fun p =>
      DecShare q h (pointMul q (pointBase q) p.1)
        (PriPoly.Commit q (NewPriPoly q t secret rand) h) p.1 p.2)
    = .ok ((xs.zip (encListOf q t secret rand (pubKeys q xs))).map (decOf q)) := by
  apply mapM_ok
  intro p hp
  obtain ⟨i, hi, hpe⟩ := List.getElem_of_mem hp
  subst hpe
  have hix : i < xs.length := by
    have := hi
    simp [List.length_zip, encListOf, pubKeys] at this
    omega
  simp only [List.getElem_zip, encListOf, List.getElem_zipWith,
    List.getElem_range, pubKeys, List.getElem_map]
  rw [decShare_ok q h (pointMul q (pointBase q) xs[i])
    (PriPoly.Commit q (NewPriPoly q t secret rand) h) xs[i] _
    (verifyEncShare_honest q h (pointMul q (pointBase q) xs[i])
      (NewPriPoly q t secret rand) (i + 1))]
  rfl

/-- `RecoverSecret` after a successful batch verification reduces to the
threshold test followed by `RecoverCommit`. -/
theorem recoverSecret_after_batch (q : ℕ) (G : Point q) (X : List (Point q))
    (E Dd : List (PubVerShare q)) (t n : ℕ) (D : List (PubVerShare q))
    (hD : VerifyDecShareBatch q G X E Dd = .ok D) :
    RecoverSecret q G X E Dd t n =
      if D.length < t then .error .tooFewShares
      else RecoverCommit q (D.map fun s => s.S) t n := by
  unfold RecoverSecret
  rw [hD]

/-- Recovery over the full honest pipeline (all `n` decrypted shares) yields
`secret·G`. -/
theorem recover_pipeline (q t : ℕ) (hq : q.Prime) (secret h : ZMod q)
    (xs : List (Scalar q)) (hn : xs.length < q) (ht1 : 1 ≤ t)
    (htn : t ≤ xs.length) (hx : ∀ x ∈ xs, x ≠ 0) (rand : List (Scalar q)) :
    RecoverSecret q (pointBase q) (pubKeys q xs)
      (encListOf q t secret rand (pubKeys q xs))
      ((xs.zip (encListOf q t secret rand (pubKeys q xs))).map (decOf q))
      t xs.length
    = .ok (pointMul q (pointBase q) secret) := by
  haveI : Fact q.Prime := ⟨hq⟩
  have hlE : (encListOf q t secret rand (pubKeys q xs)).length = xs.length := by
    simp [encListOf, pubKeys]
  have hlD : ((xs.zip (encListOf q t secret rand (pubKeys q xs))).map
      (decOf q)).length = xs.length := by
    simp [List.length_zip, hlE]
  have hall : ∀ p ∈ ((pubKeys q xs).zip
        (encListOf q t secret rand (pubKeys q xs))).zip
        ((xs.zip (encListOf q t secret rand (pubKeys q xs))).map (decOf q)),
      VerifyDecShare q (pointBase q) p.1.1 p.1.2 p.2 = .ok () := by
    intro p hp
    obtain ⟨i, hi, hpe⟩ := List.getElem_of_mem hp
    subst hpe
    have hix : i < xs.length := by
      simp only [List.length_zip, pubKeys, List.length_map, hlE, hlD] at hi
      omega
    simp only [List.getElem_zip, List.getElem_map, pubKeys, encListOf,
      List.getElem_zipWith, List.getElem_range, decOf]
    exact verifyDecShare_honest q hq xs[i] _
      (hx _ (List.getElem_mem _)) (i + 1) (i + 1) _
  have h1 : (pubKeys q xs).length
      = (encListOf q t secret rand (pubKeys q xs)).length := by
    rw [hlE]
    simp [pubKeys]
  have h2 : (encListOf q t secret rand (pubKeys q xs)).length
      = ((xs.zip (encListOf q t secret rand (pubKeys q xs))).map
          (decOf q)).length := by
    rw [hlE, hlD]
  have hbatch := verifyDecShareBatch_ok q (pointBase q) _ _ _ h1 h2 hall
  rw [recoverSecret_after_batch q (pointBase q) _ _ _ t xs.length _ hbatch]
  rw [if_neg (by rw [hlD]; omega)]
  have hsec : pointMul q (pointBase q) secret
      = evalList q (NewPriPoly q t secret rand).coeffs 0 := by
    simp [pointMul, pointBase, NewPriPoly, evalList]
  rw [hsec]
  have hlS : (((xs.zip (encListOf q t secret rand (pubKeys q xs))).map
      (decOf q)).map fun s => s.S).length = xs.length := by
    simp [List.length_zip, hlE]
  have htS : t ≤ (((xs.zip (encListOf q t secret rand (pubKeys q xs))).map
      (decOf q)).map fun s => s.S).length := by omega
  apply recoverCommit_eq q hq _ _ t xs.length htS
  · simp only [NewPriPoly, List.length_cons]
    have := List.length_take (t - 1) rand
    omega
  · have hlt : (List.take t (((xs.zip
        (encListOf q t secret rand (pubKeys q xs))).map
        (decOf q)).map fun s => s.S)).length = t := by
      rw [List.length_take]
      omega
    apply injective_of_eq _ (fun i => (((i.1 + 1 : ℕ)) : ZMod q))
    · intro i
      have h4 := i.2
      have hit : i.1 < t := by omega
      have hix : i.1 < xs.length := by omega
      simp only [List.get_eq_getElem, List.getElem_take, List.getElem_map,
        List.getElem_zip, decOf, encListOf, List.getElem_zipWith,
        List.getElem_range]
    · intro a b hab
      have h4 := a.2
      have h5 := b.2
      have ha : a.1 + 1 < q := by omega
      have hb : b.1 + 1 < q := by omega
      have := natCast_zmod_inj q (a.1 + 1) (b.1 + 1) ha hb hab
      exact Fin.ext (by omega)
  · intro s hs
    obtain ⟨i, hi, hpe⟩ := List.getElem_of_mem hs
    have hit : i < t := by
      have h3 := hi
      rw [List.length_take] at h3
      omega
    have hix : i < xs.length := by omega
    rw [← hpe]
    simp only [List.getElem_take, List.getElem_map, List.getElem_zip, decOf,
      encListOf, List.getElem_zipWith, List.getElem_range, pubKeys,
      pointMul, pointBase, mul_one]
    rw [mul_comm (evalList q (NewPriPoly q t secret rand).coeffs _) xs[i]]
    exact inv_mul_cancel_left₀ (hx _ (List.getElem_mem _)) _

/-- Recovery from any list of valid share triples: each triple carries a
nonzero private key `x` and a share index `i`, the encrypted share value is
`f(i)·(x·G)`, and the decrypted value is its decryption `x⁻¹·(f(i)·(x·G))`.
If the first `t` indices are distinct and below the group order, recovery
returns `f(0)·G` — independent of which and how many further triples follow
and of their order. -/
theorem recover_valid (q t n' : ℕ) (hq : q.Prime) (c : List (ZMod q))
    (hc : c.length ≤ t) (L : List (Scalar q × ℕ))
    (hx : ∀ p ∈ L, p.1 ≠ 0) (htL : t ≤ L.length)
    (hnd : ((L.take t).map Prod.snd).Nodup)
    (hbound : ∀ p ∈ L.take t, p.2 < q) :
    RecoverSecret q (pointBase q)
      (L.map fun p => pointMul q (pointBase q) p.1)
      (L.map fun p => (⟨⟨p.2, evalList q c ((p.2 : ℕ) : ZMod q) *
          pointMul q (pointBase q) p.1⟩,
        ⟨evalList q c ((p.2 : ℕ) : ZMod q)⟩⟩ : PubVerShare q))
      (L.map fun p => (⟨⟨p.2, p.1⁻¹ * (evalList q c ((p.2 : ℕ) : ZMod q) *
          pointMul q (pointBase q) p.1)⟩, ⟨p.1⟩⟩ : PubVerShare q))
      t n'
    = .ok (evalList q c 0) := by
  haveI : Fact q.Prime := ⟨hq⟩
  have hall : ∀ p ∈ ((L.map fun p => pointMul q (pointBase q) p.1).zip
        (L.map fun p => (⟨⟨p.2, evalList q c ((p.2 : ℕ) : ZMod q) *
            pointMul q (pointBase q) p.1⟩,
          ⟨evalList q c ((p.2 : ℕ) : ZMod q)⟩⟩ : PubVerShare q))).zip
        (L.map fun p => (⟨⟨p.2, p.1⁻¹ * (evalList q c ((p.2 : ℕ) : ZMod q) *
            pointMul q (pointBase q) p.1)⟩, ⟨p.1⟩⟩ : PubVerShare q)),
      VerifyDecShare q (pointBase q) p.1.1 p.1.2 p.2 = .ok () := by
    intro p hp
    obtain ⟨j, hj, hpe⟩ := List.getElem_of_mem hp
    subst hpe
    have hjL : j < L.length := by
      simp only [List.length_zip, List.length_map] at hj
      omega
    simp only [List.getElem_zip, List.getElem_map]
    exact verifyDecShare_honest q hq L[j].1 _
      (hx _ (List.getElem_mem _)) L[j].2 L[j].2 _
  have hbatch := verifyDecShareBatch_ok q (pointBase q) _ _ _
    (by simp) (by simp) hall
  rw [recoverSecret_after_batch q (pointBase q) _ _ _ t n' _ hbatch]
  rw [if_neg (by simp only [List.length_map]; omega)]
  have htS : t ≤ ((L.map fun p => (⟨⟨p.2, p.1⁻¹ *
      (evalList q c ((p.2 : ℕ) : ZMod q) * pointMul q (pointBase q) p.1)⟩,
      ⟨p.1⟩⟩ : PubVerShare q)).map fun s => s.S).length := by
    simp only [List.length_map]
    omega
  apply recoverCommit_eq q hq c _ t n' htS hc
  · have hlt : (List.take t ((L.map fun p => (⟨⟨p.2, p.1⁻¹ *
        (evalList q c ((p.2 : ℕ) : ZMod q) * pointMul q (pointBase q) p.1)⟩,
        ⟨p.1⟩⟩ : PubVerShare q)).map fun s => s.S)).length = t := by
      rw [List.length_take]
      simp only [List.length_map]
      omega
    have hltm : ((L.take t).map Prod.snd).length = t := by
      rw [List.length_map, List.length_take]
      omega
    apply injective_of_eq _ (fun i => (((L.getD i.1 (0, 0)).2 : ℕ) : ZMod q))
    · intro i
      have h4 := i.2
      have hit : i.1 < t := by omega
      have hiL : i.1 < L.length := by omega
      simp only [List.get_eq_getElem, List.getElem_take, List.getElem_map]
      rw [List.getD_eq_getElem L (0, 0) hiL]
    · intro a b hab
      have h4 := a.2
      have h5 := b.2
      have haL : a.1 < L.length := by omega
      have hbL : b.1 < L.length := by omega
      have hat : a.1 < t := by omega
      have hbt : b.1 < t := by omega
      have hab2 : (((L.getD a.1 (0, 0)).2 : ℕ) : ZMod q)
          = (((L.getD b.1 (0, 0)).2 : ℕ) : ZMod q) := hab
      rw [List.getD_eq_getElem L (0, 0) haL, List.getD_eq_getElem L (0, 0) hbL]
        at hab2
      have hLt : (L.take t).length = t := by
        rw [List.length_take]
        omega
      have hmema : L[a.1] ∈ L.take t := by
        have h6 : (L.take t).get ⟨a.1, by omega⟩ ∈ L.take t :=
          List.get_mem _ _ _
        simpa only [List.get_eq_getElem, List.getElem_take] using h6
      have hmemb : L[b.1] ∈ L.take t := by
        have h6 : (L.take t).get ⟨b.1, by omega⟩ ∈ L.take t :=
          List.get_mem _ _ _
        simpa only [List.get_eq_getElem, List.getElem_take] using h6
      have hsnd : L[a.1].2 = L[b.1].2 :=
        natCast_zmod_inj q _ _ (hbound _ hmema) (hbound _ hmemb) hab2
      have hinj2 := List.nodup_iff_injective_getElem.mp hnd
      have h7 := @hinj2 ⟨a.1, by omega⟩ ⟨b.1, by omega⟩
        (by simp only [List.getElem_map, List.getElem_take]; exact hsnd)
      have h8 : a.1 = b.1 := Fin.mk.inj h7
      exact Fin.ext h8
  · intro s hs
    obtain ⟨i, hi, hpe⟩ := List.getElem_of_mem hs
    have hiL : i < L.length := by
      have h3 := hi
      rw [List.length_take, List.length_map] at h3
      omega
    rw [← hpe]
    simp only [List.getElem_take, List.getElem_map, pointMul, pointBase,
      mul_one]
    rw [mul_comm (evalList q c _) L[i].1]
    refine inv_mul_cancel_left₀ (hx _ ?_) _
    exact List.getElem_mem _

/-- C1: for every prime-order group, every `t` and `n` with `1 ≤ t ≤ n`,
every secret scalar, and fresh key pairs `(x_i, X_i = x_i·G)` (the private
scalars nonzero, `n` below the group order), composing `EncShares` (issue)
with `DecShare` for each of the `n` recipients and then `RecoverSecret` on
all `n` resulting shares returns the point `secret·G` with no error. -/
theorem C1_roundtrip (q t : ℕ) (hq : q.Prime) (secret h : ZMod q)
    (xs : List (Scalar q)) (hn : xs.length < q) (ht1 : 1 ≤ t)
    (htn : t ≤ xs.length) (hx : ∀ x ∈ xs, x ≠ 0) (rand : List (Scalar q)) :
    ((EncShares q h (pubKeys q xs) secret t rand).bind fun EP =>
      ((xs.zip EP.1).mapM fun p =>
        DecShare q h (pointMul q (pointBase q) p.1) EP.2 p.1 p.2).bind fun D =>
      RecoverSecret q (pointBase q) (pubKeys q xs) EP.1 D t xs.length)
    = .ok (pointMul q (pointBase q) secret) := by
  simp only [encShares_eq, exceptBind_ok]
  simp only [pipeline_dec, exceptBind_ok]
  exact recover_pipeline q t hq secret h xs hn ht1 htn hx rand

/-- Witness for C1 at `q = 5`, `t = 2`, `n = 3`, secret `3`, `H = 2·G`,
private keys `1, 2, 3`, polynomial randomness `4`. -/
theorem C1_roundtrip_witness :
    ((EncShares 5 2 (pubKeys 5 [1, 2, 3]) 3 2 [4]).bind fun EP =>
      ((([1, 2, 3] : List (Scalar 5)).zip EP.1).mapM fun p =>
        DecShare 5 2 (pointMul 5 (pointBase 5) p.1) EP.2 p.1 p.2).bind fun D =>
      RecoverSecret 5 (pointBase 5) (pubKeys 5 [1, 2, 3]) EP.1 D 2
        ([1, 2, 3] : List (Scalar 5)).length)
    = .ok (pointMul 5 (pointBase 5) 3) :=
  C1_roundtrip 5 2 (by decide) 3 2 [1, 2, 3] (by decide) (by decide)
    (by decide) (by decide) [4]

/-- C2: for every set of `n` valid decrypted shares produced from one issue
run, `RecoverSecret` applied to any subset of at least `t` of them (the
subset given by a duplicate-free list `sel` of positions, in any order)
returns the same group element `secret·G`, independent of which shares
beyond `t` are supplied and of the order in which they are supplied. -/
theorem C2_subset_recovery (q t : ℕ) (hq : q.Prime) (secret h : ZMod q)
    (xs : List (Scalar q)) (hn : xs.length < q) (ht1 : 1 ≤ t)
    (htn : t ≤ xs.length) (hx : ∀ x ∈ xs, x ≠ 0) (rand : List (Scalar q))
    (E : List (PubVerShare q)) (P : PubPoly q)
    (hE : EncShares q h (pubKeys q xs) secret t rand = .ok (E, P))
    (D : List (PubVerShare q))
    (hD : ((xs.zip E).mapM fun p =>
      DecShare q h (pointMul q (pointBase q) p.1) P p.1 p.2) = .ok D)
    (sel : List ℕ) (hsel : sel.Nodup) (hmem : ∀ i ∈ sel, i < xs.length)
    (hts : t ≤ sel.length) :
    RecoverSecret q (pointBase q)
      (sel.map fun i => (pubKeys q xs).getD i 0)
      (sel.map fun i => E.getD i ⟨⟨0, 0⟩, ⟨0⟩⟩)
      (sel.map fun i => D.getD i ⟨⟨0, 0⟩, ⟨0⟩⟩)
      t xs.length
    = .ok (pointMul q (pointBase q) secret) := by
  rw [encShares_eq] at hE
  have hEP := Except.ok.inj hE
  rw [Prod.mk.injEq] at hEP
  obtain ⟨hE1, hE2⟩ := hEP
  subst hE1
  subst hE2
  rw [pipeline_dec] at hD
  have hD2 := Except.ok.inj hD
  subst hD2
  have hA : (sel.map fun i => (pubKeys q xs).getD i 0)
      = (sel.map fun i => ((xs.getD i 0 : Scalar q), i + 1)).map
          fun p => pointMul q (pointBase q) p.1 := by
    apply List.ext_getElem
    · simp
    · intro j h1 h2
      have hjs : j < sel.length := by simpa using h1
      have hselj : sel[j] < xs.length := hmem _ (List.getElem_mem _)
      simp only [List.getElem_map]
      rw [List.getD_eq_getElem (pubKeys q xs) 0 (by simp [pubKeys]; omega)]
      simp only [pubKeys, List.getElem_map]
      rw [List.getD_eq_getElem xs 0 hselj]
  have hB : (sel.map fun i =>
        (encListOf q t secret rand (pubKeys q xs)).getD i ⟨⟨0, 0⟩, ⟨0⟩⟩)
      = (sel.map fun i => ((xs.getD i 0 : Scalar q), i + 1)).map
          fun p => (⟨⟨p.2, evalList q (NewPriPoly q t secret rand).coeffs
              ((p.2 : ℕ) : ZMod q) * pointMul q (pointBase q) p.1⟩,
            ⟨evalList q (NewPriPoly q t secret rand).coeffs
              ((p.2 : ℕ) : ZMod q)⟩⟩ : PubVerShare q) := by
    apply List.ext_getElem
    · simp
    · intro j h1 h2
      have hjs : j < sel.length := by simpa using h1
      have hselj : sel[j] < xs.length := hmem _ (List.getElem_mem _)
      simp only [List.getElem_map]
      rw [List.getD_eq_getElem (encListOf q t secret rand (pubKeys q xs))
        ⟨⟨0, 0⟩, ⟨0⟩⟩ (by simp [encListOf, pubKeys]; omega)]
      simp only [encListOf, List.getElem_zipWith, List.getElem_range,
        pubKeys, List.getElem_map]
      rw [List.getD_eq_getElem xs 0 hselj]
  have hC : (sel.map fun i =>
        ((xs.zip (encListOf q t secret rand (pubKeys q xs))).map
          (decOf q)).getD i ⟨⟨0, 0⟩, ⟨0⟩⟩)
      = (sel.map fun i => ((xs.getD i 0 : Scalar q), i + 1)).map
          fun p => (⟨⟨p.2, p.1⁻¹ *
              (evalList q (NewPriPoly q t secret rand).coeffs
                ((p.2 : ℕ) : ZMod q) * pointMul q (pointBase q) p.1)⟩,
            ⟨p.1⟩⟩ : PubVerShare q) := by
    apply List.ext_getElem
    · simp [List.length_zip, encListOf, pubKeys]
    · intro j h1 h2
      have hjs : j < sel.length := by simpa using h1
      have hselj : sel[j] < xs.length := hmem _ (List.getElem_mem _)
      simp only [List.getElem_map]
      rw [List.getD_eq_getElem ((xs.zip
          (encListOf q t secret rand (pubKeys q xs))).map (decOf q))
        ⟨⟨0, 0⟩, ⟨0⟩⟩
        (by simp [List.length_zip, encListOf, pubKeys]; omega)]
      simp only [List.getElem_map, List.getElem_zip, decOf, encListOf,
        List.getElem_zipWith, List.getElem_range, pubKeys]
      rw [List.getD_eq_getElem xs 0 hselj]
  rw [hA, hB, hC]
  rw [(by simp [pointMul, pointBase, NewPriPoly, evalList] :
    pointMul q (pointBase q) secret
      = evalList q (NewPriPoly q t secret rand).coeffs 0)]
  apply recover_valid q t xs.length hq (NewPriPoly q t secret rand).coeffs
  · simp only [NewPriPoly, List.length_cons]
    have := List.length_take (t - 1) rand
    omega
  · intro p hp
    obtain ⟨i, hi, hpe⟩ := List.mem_map.mp hp
    rw [← hpe]
    have hix : i < xs.length := hmem _ hi
    rw [List.getD_eq_getElem xs 0 hix]
    exact hx _ (List.getElem_mem _)
  · simpa using hts
  · rw [← List.map_take]
    have h9 : ((sel.take t).map fun i =>
          ((xs.getD i 0 : Scalar q), i + 1)).map Prod.snd
        = (sel.take t).map fun i => i + 1 := by
      rw [List.map_map]
      rfl
    rw [h9]
    apply List.Nodup.map
    · intro a b hab
      have hab2 : a + 1 = b + 1 := hab
      omega
    · exact hsel.sublist (List.take_sublist t sel)
  · intro p hp
    rw [← List.map_take] at hp
    obtain ⟨i, hi, hpe⟩ := List.mem_map.mp hp
    rw [← hpe]
    have hix : i < xs.length :=
      hmem _ (List.mem_of_mem_take hi)
    omega

/-- Witness for C2 at `q = 5`, `t = 2`, `n = 3`, secret `3`, `H = 2·G`,
private keys `1, 2, 3`, randomness `4`, selecting shares `2` and `0` in
reversed order. -/
theorem C2_subset_recovery_witness :
    RecoverSecret 5 (pointBase 5)
      ([2, 0].map fun i => (pubKeys 5 [1, 2, 3]).getD i 0)
      ([2, 0].map fun i =>
        (encListOf 5 2 3 [4] (pubKeys 5 [1, 2, 3])).getD i ⟨⟨0, 0⟩, ⟨0⟩⟩)
      ([2, 0].map fun i =>
        ((([1, 2, 3] : List (Scalar 5)).zip
          (encListOf 5 2 3 [4] (pubKeys 5 [1, 2, 3]))).map
          (decOf 5)).getD i ⟨⟨0, 0⟩, ⟨0⟩⟩)
      2 ([1, 2, 3] : List (Scalar 5)).length
    = .ok (pointMul 5 (pointBase 5) 3) :=
  C2_subset_recovery 5 2 (by decide) 3 2 [1, 2, 3] (by decide) (by decide)
    (by decide) (by decide) [4]
    (encListOf 5 2 3 [4] (pubKeys 5 [1, 2, 3]))
    (PriPoly.Commit 5 (NewPriPoly 5 2 3 [4]) 2)
    (encShares_eq 5 2 (pubKeys 5 [1, 2, 3]) 3 2 [4])
    ((([1, 2, 3] : List (Scalar 5)).zip
      (encListOf 5 2 3 [4] (pubKeys 5 [1, 2, 3]))).map (decOf 5))
    (pipeline_dec 5 2 2 3 [4] [1, 2, 3])
    [2, 0] (by decide) (by decide) (by decide)

/-- C3: `RecoverSecret` first runs `VerifyDecShareBatch`, and when the number
of shares surviving that verification is strictly fewer than `t` it returns
the `TooFewShares` error and no secret — in particular with exactly `t-1`
surviving shares, or with `0` shares. -/
theorem C3_too_few_shares (q : ℕ) (G : Point q) (X : List (Point q))
    (encShares decShares : List (PubVerShare q)) (t n : ℕ)
    (D : List (PubVerShare q))
    (hD : VerifyDecShareBatch q G X encShares decShares = .ok D)
    (hlt : D.length < t) :
    RecoverSecret q G X encShares decShares t n = .error .tooFewShares := by
  rw [recoverSecret_after_batch q G X encShares decShares t n D hD]
  rw [if_pos hlt]

/-- Witness for C3: `t = 1` with `0` surviving shares (which is `t - 1`). -/
theorem C3_too_few_shares_witness :
    RecoverSecret 5 0 [] [] [] 1 0 = .error .tooFewShares :=
  C3_too_few_shares 5 0 [] [] [] 1 0 [] rfl (by decide)

/-- C4: a batch operation (`VerifyEncShareBatch`, `DecShareBatch`,
`VerifyDecShareBatch`) whose input sequences do not all have the same length
returns the `DifferentLengths` error and no output sequences, performing no
per-share verification. -/
theorem C4_length_mismatch (q : ℕ) (H G : Point q) (x : Scalar q)
    (X : List (Point q)) (polys : List (PubPoly q))
    (encShares decShares : List (PubVerShare q)) :
    (¬(X.length = polys.length ∧ polys.length = encShares.length) →
      VerifyEncShareBatch q H X polys encShares = .error .differentLengths
      ∧ DecShareBatch q H X polys x encShares = .error .differentLengths)
    ∧ (¬(X.length = encShares.length ∧ encShares.length = decShares.length) →
      VerifyDecShareBatch q G X encShares decShares
        = .error .differentLengths) := by
  constructor
  · intro hmis
    constructor
    · unfold VerifyEncShareBatch
      rw [if_pos (by tauto)]
    · unfold DecShareBatch
      rw [if_pos (by tauto)]
  · intro hmis
    unfold VerifyDecShareBatch
    rw [if_pos (by tauto)]

/-- Witness for C4 with sequences of lengths `(5, 5, 4)`. -/
theorem C4_length_mismatch_witness :
    VerifyEncShareBatch 5 0 (List.replicate 5 0) (List.replicate 5 ⟨0, []⟩)
        (List.replicate 4 ⟨⟨0, 0⟩, ⟨0⟩⟩) = .error .differentLengths
    ∧ DecShareBatch 5 0 (List.replicate 5 0) (List.replicate 5 ⟨0, []⟩) 1
        (List.replicate 4 ⟨⟨0, 0⟩, ⟨0⟩⟩) = .error .differentLengths
    ∧ VerifyDecShareBatch 5 0 (List.replicate 5 0)
        (List.replicate 5 ⟨⟨0, 0⟩, ⟨0⟩⟩) (List.replicate 4 ⟨⟨0, 0⟩, ⟨0⟩⟩)
      = .error .differentLengths :=
  ⟨((C4_length_mismatch 5 0 0 1 (List.replicate 5 0)
      (List.replicate 5 ⟨0, []⟩) (List.replicate 4 ⟨⟨0, 0⟩, ⟨0⟩⟩)
      []).1 (by decide)).1,
   ((C4_length_mismatch 5 0 0 1 (List.replicate 5 0)
      (List.replicate 5 ⟨0, []⟩) (List.replicate 4 ⟨⟨0, 0⟩, ⟨0⟩⟩)
      []).1 (by decide)).2,
   (C4_length_mismatch 5 0 0 1 (List.replicate 5 0) []
      (List.replicate 5 ⟨⟨0, 0⟩, ⟨0⟩⟩)
      (List.replicate 4 ⟨⟨0, 0⟩, ⟨0⟩⟩)).2 (by decide)⟩

/-- C5: for equal-length inputs the batch verifiers `VerifyEncShareBatch`
and `VerifyDecShareBatch` always return a nil error: a share failing its
per-share verification is silently dropped from the outputs and never causes
the batch call itself to fail. -/
theorem C5_batch_nil_error (q : ℕ) (H G : Point q) (X : List (Point q))
    (polys : List (PubPoly q)) (encShares : List (PubVerShare q))
    (X2 : List (Point q)) (encShares2 decShares2 : List (PubVerShare q))
    (h1 : X.length = polys.length ∧ polys.length = encShares.length)
    (h2 : X2.length = encShares2.length
      ∧ encShares2.length = decShares2.length) :
    (∃ out, VerifyEncShareBatch q H X polys encShares = .ok out)
    ∧ (∃ out, VerifyDecShareBatch q G X2 encShares2 decShares2 = .ok out) := by
  constructor
  · refine ⟨((((X.zip polys).zip encShares).filter fun p =>
        isOk (VerifyEncShare q H p.1.1 p.1.2 p.2)).map fun p => p.1.1,
      (((X.zip polys).zip encShares).filter fun p =>
        isOk (VerifyEncShare q H p.1.1 p.1.2 p.2)).map fun p => p.2), ?_⟩
    unfold VerifyEncShareBatch
    rw [if_neg (by tauto)]
  · refine ⟨(((X2.zip encShares2).zip decShares2).filter fun p =>
        isOk (VerifyDecShare q G p.1.1 p.1.2 p.2)).map fun p => p.2, ?_⟩
    unfold VerifyDecShareBatch
    rw [if_neg (by tauto)]

/-- Witness for C5: singleton batches whose only share fails verification —
the result is still a nil error (with the share dropped). -/
theorem C5_batch_nil_error_witness :
    (∃ out, VerifyEncShareBatch 5 0 [1] [⟨0, [0]⟩] [⟨⟨1, 4⟩, ⟨1⟩⟩] = .ok out)
    ∧ (∃ out,
      VerifyDecShareBatch 5 1 [1] [⟨⟨1, 1⟩, ⟨1⟩⟩] [⟨⟨1, 3⟩, ⟨2⟩⟩] = .ok out) :=
  C5_batch_nil_error 5 0 1 [1] [⟨0, [0]⟩] [⟨⟨1, 4⟩, ⟨1⟩⟩] [1]
    [⟨⟨1, 1⟩, ⟨1⟩⟩] [⟨⟨1, 3⟩, ⟨2⟩⟩] (by decide) (by decide)

theorem map_proj_zip3 {α β γ : Type} (X : List α) (polys : List β)
    (E : List γ) (h : X.length = polys.length) :
    ((X.zip polys).zip E).map (fun p => (p.1.1, p.2)) = X.zip E := by
  induction X generalizing polys E with
  | nil => simp
  | cons a X ih =>
    cases polys with
    | nil => simp at h
    | cons pl polys =>
      cases E with
      | nil => simp
      | cons e E =>
        simp only [List.zip_cons_cons, List.map_cons]
        rw [ih polys E (by simpa using h)]

/-- C6: for equal-length inputs, the two sequences returned by
`VerifyEncShareBatch` have the same length and their pointwise pairing is a
sublist of the pairing of the input keys with the input encrypted shares:
the `j`-th returned key is the key originally co-indexed with the `j`-th
returned share, and survivors keep their original relative order. -/
theorem C6_alignment (q : ℕ) (H : Point q) (X : List (Point q))
    (polys : List (PubPoly q)) (encShares : List (PubVerShare q))
    (K : List (Point q)) (E : List (PubVerShare q))
    (hKE : VerifyEncShareBatch q H X polys encShares = .ok (K, E)) :
    K.length = E.length ∧ List.Sublist (K.zip E) (X.zip encShares) := by
  unfold VerifyEncShareBatch at hKE
  by_cases hlen : X.length ≠ polys.length ∨ polys.length ≠ encShares.length
  · rw [if_pos hlen] at hKE
    exact absurd hKE (by simp)
  · rw [if_neg hlen] at hKE
    have hKE2 := Except.ok.inj hKE
    rw [Prod.mk.injEq] at hKE2
    obtain ⟨hK, hE⟩ := hKE2
    push_neg at hlen
    obtain ⟨hl1, hl2⟩ := hlen
    subst hK
    subst hE
    constructor
    · simp
    · rw [List.zip_map']
      have hsub : List.Sublist
          ((((X.zip polys).zip encShares).filter fun p =>
            isOk (VerifyEncShare q H p.1.1 p.1.2 p.2)).map
              fun p => (p.1.1, p.2))
          (((X.zip polys).zip encShares).map fun p => (p.1.1, p.2)) :=
        (List.filter_sublist _).map _
      rwa [map_proj_zip3 X polys encShares hl1] at hsub

/-- Witness for C6: a two-share batch whose second share fails verification;
the surviving pair keeps its co-indexed key. -/
theorem C6_alignment_witness :
    (([1] : List (Point 5)).length = ([⟨⟨1, 3⟩, ⟨3⟩⟩] :
        List (PubVerShare 5)).length)
    ∧ List.Sublist (([1] : List (Point 5)).zip
        ([⟨⟨1, 3⟩, ⟨3⟩⟩] : List (PubVerShare 5)))
        (([1, 2] : List (Point 5)).zip
          ([⟨⟨1, 3⟩, ⟨3⟩⟩, ⟨⟨1, 4⟩, ⟨2⟩⟩] : List (PubVerShare 5))) :=
  C6_alignment 5 1 [1, 2] [⟨1, [3]⟩, ⟨1, [3]⟩] [⟨⟨1, 3⟩, ⟨3⟩⟩, ⟨⟨1, 4⟩, ⟨2⟩⟩]
    [1] [⟨⟨1, 3⟩, ⟨3⟩⟩] rfl

/-- C7: `VerifyEncShare` evaluates the public commitment polynomial at the
share's index to obtain `sH` and succeeds exactly when the share's DLEQ proof
verifies `log_H(sH) = log_X(sX)`; otherwise it returns
`EncVerificationFailed`, its only possible failure. -/
theorem C7_verify_enc (q : ℕ) (H X : Point q) (poly : PubPoly q)
    (encShare : PubVerShare q) :
    (VerifyEncShare q H X poly encShare = .ok ()
      ↔ DLEQProof.Verify q encShare.P H X
          (PubPoly.Eval q poly encShare.S.I).V encShare.S.V = true)
    ∧ (VerifyEncShare q H X poly encShare = .ok ()
      ∨ VerifyEncShare q H X poly encShare
          = .error .encVerificationFailed) := by
  simp only [VerifyEncShare]
  by_cases hv : DLEQProof.Verify q encShare.P H X
      (PubPoly.Eval q poly encShare.S.I).V encShare.S.V = true
  · rw [if_pos hv]
    simp [hv]
  · rw [if_neg hv]
    simp [hv]

/-- C8: `DecShare` first re-verifies the encrypted share exactly as
`VerifyEncShare` does; on failure it returns `EncVerificationFailed` and no
share, and otherwise the decrypted share carries the same index as the
encrypted share and the value `x⁻¹·sX`. -/
theorem C8_dec_share (q : ℕ) (H X : Point q) (poly : PubPoly q) (x : Scalar q)
    (encShare : PubVerShare q) :
    (VerifyEncShare q H X poly encShare = .error .encVerificationFailed →
      DecShare q H X poly x encShare = .error .encVerificationFailed)
    ∧ (VerifyEncShare q H X poly encShare = .ok () →
      DecShare q H X poly x encShare
        = .ok ⟨⟨encShare.S.I, x⁻¹ * encShare.S.V⟩, ⟨x⟩⟩) := by
  constructor
  · intro hver
    unfold DecShare
    rw [hver]
  · intro hver
    exact decShare_ok q H X poly x encShare hver

/-- Witness for C8: one share failing verification (decryption refused) and
one verifying (decryption succeeds with the same index and value `x⁻¹·sX`). -/
theorem C8_dec_share_witness :
    (VerifyEncShare 5 1 2 ⟨1, [3]⟩ ⟨⟨1, 2⟩, ⟨3⟩⟩
        = .error .encVerificationFailed
      ∧ DecShare 5 1 2 ⟨1, [3]⟩ 2 ⟨⟨1, 2⟩, ⟨3⟩⟩
        = .error .encVerificationFailed)
    ∧ (VerifyEncShare 5 1 2 ⟨1, [3]⟩ ⟨⟨1, 1⟩, ⟨3⟩⟩ = .ok ()
      ∧ DecShare 5 1 2 ⟨1, [3]⟩ 2 ⟨⟨1, 1⟩, ⟨3⟩⟩
        = .ok ⟨⟨1, (2 : ZMod 5)⁻¹ * 1⟩, ⟨2⟩⟩) :=
  ⟨⟨rfl, (C8_dec_share 5 1 2 ⟨1, [3]⟩ 2 ⟨⟨1, 2⟩, ⟨3⟩⟩).1 rfl⟩,
   ⟨rfl, (C8_dec_share 5 1 2 ⟨1, [3]⟩ 2 ⟨⟨1, 1⟩, ⟨3⟩⟩).2 rfl⟩⟩

end PVSS

namespace Abstract

/-- C10: for every `Secret` and every `Point`, `UnmarshalBinary` with an
empty byte slice returns a nil error and leaves the receiver's value
unchanged; the result is the same for every environment, so no suite lookup
or decoding is attempted. -/
theorem C10_unmarshal_empty (env : MarshalEnv) (s : MSecret) (p : MPoint) :
    MSecret.unmarshalBinary env s [] = (s, none)
    ∧ MPoint.unmarshalBinary env p [] = (p, none) := by
  constructor
  · unfold MSecret.unmarshalBinary
    simp
  · unfold MPoint.unmarshalBinary
    simp

end Abstract